import Mathlib

/-!
Verification of the `DynamicModel` core (src/python-scripts/model/dynamic_model.py)
and the `ChenDataset` generator (src/python-scripts/data/chen_example.py).

Embedding conventions:
  * A torch tensor of shape `(batch, channel, time)` is represented time-major:
    the outer list runs over time steps, each element (a `Frame`) is the
    batch-indexed list of channel-value rows at that time step.  Thus a Python
    slice `x[:, :, a:b]` becomes `(x.drop a).take (b - a)`, `x[:, :, i] = v`
    becomes `x.set i v`, and `torch.cat(_, dim=-1)` becomes list append.
  * `torch.cat(_, dim=1)` (channel concatenation) appends the channel rows of
    corresponding frames.
  * A Python exception (e.g. `torch.zeros` with a negative size, indexing an
    empty time axis with `-1`, or a shape-incompatible indexed assignment) is
    modelled by `Option.none`.
  * The learned predictor `self.m` is an opaque function `Tensor → Tensor`;
    its receptive field `rf` is passed alongside it.
  * Values are rationals; torch float arithmetic plays no role in the claims.
-/

/-- One time-step cross-section of a tensor: batch-indexed rows of channel
values. -/
abbrev Frame : Type := List (List ℚ)

/-- A tensor of shape `(batch, channel, time)`, stored time-major. -/
abbrev Tensor : Type := List Frame

/-- A zero frame of `n` batch rows with `c` channels each. -/
def zeroFrame (n c : ℕ) : Frame :=
  List.replicate n (List.replicate c 0)

/-- `torch.zeros(n, c, t)` in the time-major representation. -/
def zerosT (n c t : ℕ) : Tensor :=
  List.replicate t (zeroFrame n c)

/-- `x.size(0)`: number of batch elements (read off the first frame). -/
def nBatch (x : Tensor) : ℕ :=
  (x.headD []).length

/-- `x.size(1)`: number of channels (read off the first row of the first
frame). -/
def nChannels (x : Tensor) : ℕ :=
  ((x.headD []).headD []).length

/-- `x.size(-1)`: the time length. -/
def seqLen (x : Tensor) : ℕ :=
  x.length

/-- `x` is a well-formed tensor of shape `(n, c, t)`. -/
def HasShape (x : Tensor) (n c t : ℕ) : Prop :=
  x.length = t ∧ ∀ f ∈ x, f.length = n ∧ ∀ r ∈ f, r.length = c

instance (x : Tensor) (n c t : ℕ) : Decidable (HasShape x n c t) := by
  unfold HasShape; infer_instance

/-- The value computed by `torch.cat((x, y), dim=1)` when the shapes are
compatible: concatenate channels of corresponding frames. -/
def catChannel (x y : Tensor) : Tensor :=
  List.zipWith (fun f g => List.zipWith (· ++ ·) f g) x y

/-- `torch.cat((x, y), dim=1)` including torch's shape check: concatenating
along the channel axis requires the non-concatenated time dimension to
match, otherwise `torch.cat` raises (`none`). -/
def catChannelChk (x y : Tensor) : Option Tensor :=
  if x.length = y.length then some (catChannel x y) else none

/-- `F.pad(x, [k, 0])` on the time axis: prepend `k` zero frames of shape
`(n, c)` (torch reads `n`, `c` off the tensor's metadata; here they are
passed explicitly). -/
def padTimeLeft (n c k : ℕ) (x : Tensor) : Tensor :=
  zerosT n c k ++ x

/-- `DynamicModel._get_u_delayed(u, io_delay)`.

For `io_delay > 0` the code evaluates
`torch.cat((torch.zeros((n, c, io_delay)), u[:, :, :-io_delay]), -1)`;
the Python slice `u[:, :, :-d]` keeps the first `len - d` time steps
(clamping at zero, exactly as truncated `ℕ` subtraction does).

For `io_delay < 0` the code evaluates
`torch.cat((u[:, :, io_delay:], torch.zeros((n, c, io_delay)),), -1)` —
but `torch.zeros` with the still-negative size `io_delay` raises
(negative dimension), so this branch always fails: `none`. -/
def get_u_delayed (u : Tensor) (ioDelay : ℤ) : Option Tensor :=
  if 0 < ioDelay then
    some (zerosT (nBatch u) (nChannels u) ioDelay.toNat ++ u.take (u.length - ioDelay.toNat))
  else if ioDelay < 0 then
    none
  else
    some u

/-- `F.pad(y[:, :, :-1], [1, 0])`: the reference output shifted one step to
the right, with a zero frame in front (shape metadata of `y` passed
explicitly as `n`, `c`). -/
def shiftRightOne (n c : ℕ) (y : Tensor) : Tensor :=
  zeroFrame n c :: y.take (y.length - 1)

/-- `DynamicModel.one_step_ahead(u, y)`.  `ar` is `self.ar`; `m` the
predictor `self.m`.  When `ar` holds and `y is None`, slicing `None`
raises (`none`); `torch.cat((u_delayed, y_delayed), 1)` raises when the two
operands' time lengths differ (they do whenever `io_delay > len(u)`, since
the delayed input then has time length `io_delay`). -/
def one_step_ahead (ar : Bool) (m : Tensor → Tensor) (ioDelay : ℤ)
    (u : Tensor) (y? : Option Tensor) : Option Tensor :=
  (get_u_delayed u ioDelay).bind fun uDelayed =>
    if ar then
      match y? with
      | none => none
      | some y =>
        (catChannelChk uDelayed (shiftRightOne (nBatch y) (nChannels y) y)).map m
    else
      some (m uDelayed)

/-- The window `x = torch.cat((u_in, y_in), 1)` assembled at loop index `i`
of `DynamicModel.free_run_simulation`:

  * `i < rf`: `u_in = F.pad(u_delayed[:, :, :i+1], [rf-i-1, 0])` and
    `y_in = F.pad(y_sim[:, :, :i], [rf-i, 0])`;
  * otherwise: `u_in = u_delayed[:, :, i-rf+1:i+1]` and
    `y_in = y_sim[:, :, i-rf:i]`. -/
def arWindow (rf n c : ℕ) (uDelayed ySim : Tensor) (i : ℕ) : Tensor :=
  if i < rf then
    catChannel (padTimeLeft n c (rf - i - 1) (uDelayed.take (i + 1)))
               (padTimeLeft n c (rf - i) (ySim.take i))
  else
    catChannel ((uDelayed.drop (i - rf + 1)).take ((i + 1) - (i - rf + 1)))
               ((ySim.drop (i - rf)).take (i - (i - rf)))

/-- Numpy/torch broadcast of a channel row into a slot of width `c`:
the row is taken as-is when it already has width `c`, replicated when it is
a singleton, and rejected otherwise. -/
def bcastRow (c : ℕ) (r : List ℚ) : Option (List ℚ) :=
  if r.length = c then some r
  else if r.length = 1 then some (List.replicate c (r.headD 0))
  else none

/-- Broadcast every batch row of a frame against channel width `c`,
failing if any row is incompatible. -/
def bcastRows (c : ℕ) : List (List ℚ) → Option (List (List ℚ))
  | [] => some []
  | r :: rs => (bcastRow c r).bind fun r2 => (bcastRows c rs).map (r2 :: ·)

/-- Numpy/torch broadcast of a `(batch, channel)` value into a slot of shape
`(n, c)`, as used by the indexed assignment `y_sim[:, :, i] = v`. -/
def bcastFrame (n c : ℕ) (f : Frame) : Option Frame :=
  if f.length = n then bcastRows c f
  else if f.length = 1 then (bcastRow c (f.headD [])).map (List.replicate n)
  else none

/-- The indexed assignment `y_sim[:, :, i] = v`: broadcast `v` against the
slot's shape and overwrite time step `i`. -/
def storeStep (buf : Tensor) (i : ℕ) (v : Frame) : Option Tensor :=
  (bcastFrame (buf.getD i []).length ((buf.getD i []).headD []).length v).map
    fun v2 => buf.set i v2

/-- One iteration of the free-run loop:
`y_sim[:, :, i] = self.m(x)[:, :, -1]` where `x = arWindow … i`.
Indexing `[:, :, -1]` on an empty time axis raises, hence `getLast?`. -/
def freeRunStep (m : Tensor → Tensor) (rf n c : ℕ) (uDelayed : Tensor)
    (buf : Tensor) (i : ℕ) : Option Tensor :=
  ((m (arWindow rf n c uDelayed buf i)).getLast?).bind fun v =>
    storeStep buf i v

/-- `DynamicModel.free_run_simulation(u, y)`.  `rf = self.m.receptive_field`
is passed alongside the opaque predictor `m`.  The non-autoregressive branch
falls back to `one_step_ahead` with the same (possibly absent) `y`. -/
def free_run_simulation (ar : Bool) (m : Tensor → Tensor) (rf : ℕ)
    (ioDelay : ℤ) (u : Tensor) (y? : Option Tensor) : Option Tensor :=
  if ar then
    (get_u_delayed u ioDelay).bind fun uDelayed =>
      (List.range (seqLen u)).foldlM
        (freeRunStep m rf (nBatch u) (nChannels u) uDelayed)
        (zerosT (nBatch u) (nChannels u) (seqLen u))
  else
    one_step_ahead ar m ioDelay u y?

/-- Modelled from the spec: `RunMode` is defined in `model/utils.py`, which
is not among the sources; the spec names exactly the two modes
`ONE_STEP_AHEAD` and `FREE_RUN_SIMULATION`.  The constructor `OTHER` stands
for any different value a caller could pass to `set_mode` (Python imposes no
type), which `forward` must reject. -/
inductive RunMode : Type
  | ONE_STEP_AHEAD : RunMode
  | FREE_RUN_SIMULATION : RunMode
  | OTHER : RunMode
deriving DecidableEq, Repr

/-- The mutable state of a `DynamicModel`: its own `self.mode` and the mode
flag `self.m.mode` it mirrors into the predictor via `self.m.set_mode`. -/
structure CoreState : Type where
  mode : RunMode
  predictorMode : RunMode
deriving DecidableEq, Repr

/-- `DynamicModel.__init__` sets `self.mode = RunMode.ONE_STEP_AHEAD` and
then calls `self.m.set_mode(self.mode)`. -/
def initState : CoreState :=
  { mode := RunMode.ONE_STEP_AHEAD, predictorMode := RunMode.ONE_STEP_AHEAD }

/-- `DynamicModel.set_mode(mode)`: store the mode and propagate it to the
predictor. -/
def set_mode (_s : CoreState) (mo : RunMode) : CoreState :=
  { mode := mo, predictorMode := mo }

/-- `DynamicModel.forward(*args)`: dispatch on `self.mode`; an unsupported
mode raises (`none`). -/
def forwardCall (s : CoreState) (ar : Bool) (m : Tensor → Tensor) (rf : ℕ)
    (ioDelay : ℤ) (u : Tensor) (y? : Option Tensor) : Option Tensor :=
  match s.mode with
  | RunMode.ONE_STEP_AHEAD => one_step_ahead ar m ioDelay u y?
  | RunMode.FREE_RUN_SIMULATION => free_run_simulation ar m rf ioDelay u y?
  | RunMode.OTHER => none

/-- `DynamicModel.num_model_inputs`. -/
def num_model_inputs (numInputs numOutputs : ℕ) (ar : Bool) : ℕ :=
  if ar then numInputs + numOutputs else numInputs

/-- `ChenDataset._nonlinear_function` (chen_example.py).  `np.exp` is
transcendental, so the pointwise exponential is abstracted as the parameter
`e`; none of the verified properties depend on its values. -/
def nonlinear_function (e : ℚ → ℚ) (y1 y2 u1 u2 : ℚ) : ℚ :=
  (8/10 - 5/10 * e (-(y1^2))) * y1 - (3/10 + 9/10 * e (-(y1^2))) * y2
    + u1 + 2/10 * u2 + 1/10 * u1 * u2

/-- `ChenDataset._generate_random_input(n, nrep, sd)`:
`np.repeat(sd * rng.randn(n // nrep), nrep)`.  The random draws are the
oracle stream `rng`. -/
def generate_random_input (rng : ℕ → ℚ) (n nrep : ℕ) (sd : ℚ) : List ℚ :=
  ((List.range (n / nrep)).map fun i => sd * rng i).flatMap (List.replicate nrep)

/-- The recurrence inside `ChenDataset._simulate_system`: `y[0]` and `y[1]`
keep their initial random draws (`y0`), and
`y[k] = _nonlinear_function(y[k-1], y[k-2], u[k-1], u[k-2]) + v[k]`
for `k ≥ 2`. -/
def chenY (e : ℚ → ℚ) (y0 v : ℕ → ℚ) (u : List ℚ) : ℕ → ℚ
  | 0 => y0 0
  | 1 => y0 1
  | k + 2 =>
    nonlinear_function e (chenY e y0 v u (k + 1)) (chenY e y0 v u k)
      (u.getD (k + 1) 0) (u.getD k 0) + v (k + 2)

/-- `ChenDataset._simulate_system(u, sd_v, sd_w)`: run the recurrence over
`n = len(u)` steps and add the output noise `w`.  `rngV`, `rngW`, `y0` are
the oracle streams behind `rng.randn(n)` and `rd.randn(n)`. -/
def simulate_system (e : ℚ → ℚ) (rngV rngW y0 : ℕ → ℚ) (sdv sdw : ℚ)
    (u : List ℚ) : List ℚ :=
  (List.range u.length).map fun k =>
    chenY e y0 (fun j => sdv * rngV j) u k + sdw * rngW k

/-- `np.reshape(xs, (a, b, c))` for a flat row-major array: fails unless the
element count matches exactly. -/
def reshape3 (a b c : ℕ) (xs : List ℚ) : Option (List (List (List ℚ))) :=
  if xs.length = a * b * c then
    some ((List.range a).map fun i =>
      (List.range b).map fun j => (xs.drop ((i * b + j) * c)).take c)
  else none

/-- `ChenDataset._gen_data` (shape/content skeleton): generate the input,
simulate the system, drop the burnout, reshape both arrays to
`(ntotbatch, 1, seq_len)`.  A reshape of a mismatched element count raises
(`none`), which propagates out of `ChenDataset.__init__`. -/
def gen_data (e : ℚ → ℚ) (rngU rngV rngW y0 : ℕ → ℚ) (sdv sdw : ℚ)
    (seq_len ntotbatch burnout : ℕ) :
    Option (List (List (List ℚ)) × List (List (List ℚ))) :=
  let total := seq_len * ntotbatch + burnout
  let u := generate_random_input rngU total 5 1
  let y := simulate_system e rngV rngW y0 sdv sdw u
  (reshape3 ntotbatch 1 seq_len (u.drop burnout)).bind fun ur =>
    (reshape3 ntotbatch 1 seq_len (y.drop burnout)).bind fun yr =>
      some (ur, yr)

/-- `ChenDataset.__len__`. -/
def chen_len (ntotbatch : ℕ) : ℕ := ntotbatch

/-- `ChenDataset.data_shape`. -/
def chen_data_shape (seq_len : ℕ) : (ℕ × ℕ) × (ℕ × ℕ) :=
  ((1, seq_len), (1, seq_len))

/-- `ChenDataset.__getitem__(idx)`: the `idx`-th `(u, y)` pair of the
generated arrays. -/
def chen_getitem (data : List (List (List ℚ)) × List (List (List ℚ)))
    (idx : ℕ) : List (List ℚ) × List (List ℚ) :=
  (data.1.getD idx [], data.2.getD idx [])

/-- The free-run recurrence in the form the spec states it: `specSim … i` is
the list of the first `i` produced output frames, each new frame being the
last time step of the predictor applied to the window over the delayed input
and the outputs already produced. -/
def specSim (m : Tensor → Tensor) (rf n c : ℕ) (uDelayed : Tensor) :
    ℕ → Tensor
  | 0 => []
  | i + 1 =>
    specSim m rf n c uDelayed i ++
      [((m (arWindow rf n c uDelayed (specSim m rf n c uDelayed i) i)).getLast?).getD
        (zeroFrame n c)]

/-- The per-step window exactly as the claim words it, over the delayed
input `uDelayed` and the final produced output sequence `out`: for `t < rf`
the first `t+1` delayed-input frames left-padded with `rf-t-1` zero frames
and the first `t` produced frames left-padded with `rf-t` zero frames; for
`t ≥ rf` the slices `[t-rf+1, t]` and `[t-rf, t-1]` (width `rf`); input
window then output window, concatenated along the channel axis. -/
def arWindowSpec (rf n c : ℕ) (uDelayed out : Tensor) (t : ℕ) : Tensor :=
  if t < rf then
    catChannel (zerosT n c (rf - t - 1) ++ uDelayed.take (t + 1))
               (zerosT n c (rf - t) ++ out.take t)
  else
    catChannel ((uDelayed.drop (t - rf + 1)).take rf)
               ((out.drop (t - rf)).take rf)

theorem getD_take_eq {α : Type _} (l : List α) (k t : ℕ) (d : α) (h : t < k) :
    (l.take k).getD t d = l.getD t d := by
  induction l generalizing k t with
  | nil => simp
  | cons a l ih =>
    cases k with
    | zero => omega
    | succ k =>
      cases t with
      | zero => simp
      | succ t => simpa using ih k t (by omega)

theorem getD_replicate_of_lt {α : Type _} (x d : α) (k t : ℕ) (h : t < k) :
    (List.replicate k x).getD t d = x := by
  rw [List.getD_eq_getElem _ _ (by simpa using h), List.getElem_replicate]

theorem dims_of_hasShape {u : Tensor} {n c L : ℕ} (h : HasShape u n c L)
    (hL : 0 < L) (hn : 0 < n) : nBatch u = n ∧ nChannels u = c := by
  obtain ⟨hlen, hall⟩ := h
  cases u with
  | nil => simp at hlen; omega
  | cons f rest =>
    obtain ⟨hf, hrows⟩ := hall f (by simp)
    cases f with
    | nil => simp at hf; omega
    | cons r rows =>
      refine ⟨by simpa [nBatch] using hf, ?_⟩
      simpa [nChannels] using hrows r (by simp)

/-- C2: the claim describes the `io_delay < 0` contract, asserting it
succeeds without error; in the code this branch always raises, because it
passes the still-negative `io_delay` as a size to `torch.zeros`.  Concrete
failing input: `u = [1, 2, 3]` (shape `(1, 1, 3)`), `io_delay = -1`. -/
theorem c2_negative_delay_raises :
    get_u_delayed [[[1]], [[2]], [[3]]] (-1) = none := by
  rfl

/-- C3: for `0 < io_delay < L` the delayed sequence is zero before
`io_delay` and `u[t - io_delay]` from `io_delay` on, and `io_delay = 0` is
the identity. -/
theorem c3_positive_delay :
    (∀ (u : Tensor) (n c L d : ℕ), HasShape u n c L → 0 < n → 0 < d → d < L →
      ∃ w, get_u_delayed u (d : ℤ) = some w ∧
        (∀ t, t < d → w.getD t [] = zeroFrame n c) ∧
        (∀ t, d ≤ t → t < L → w.getD t [] = u.getD (t - d) [])) ∧
    (∀ u : Tensor, get_u_delayed u 0 = some u) := by
  constructor
  · intro u n c L d hu hn hd hdL
    have hL : 0 < L := by omega
    obtain ⟨hb, hc⟩ := dims_of_hasShape hu hL hn
    have hlen : u.length = L := hu.1
    have hpos : (0 : ℤ) < (d : ℤ) := by exact_mod_cast hd
    refine ⟨zerosT n c d ++ u.take (u.length - d), ?_, ?_, ?_⟩
    · simp [get_u_delayed, hpos, hb, hc]
    · intro t ht
      rw [List.getD_append _ _ _ _ (by simpa [zerosT] using ht)]
      exact getD_replicate_of_lt _ _ _ _ ht
    · intro t htd htL
      rw [List.getD_append_right _ _ _ _ (by simpa [zerosT] using htd)]
      simp only [zerosT, List.length_replicate]
      exact getD_take_eq _ _ _ _ (by omega)
  · intro u
    simp [get_u_delayed]

/-- Witness for `c3_positive_delay`: `u = [1, 2, 3]`, `io_delay = 1`. -/
theorem c3_positive_delay_witness :
    ∃ w, get_u_delayed [[[1]], [[2]], [[3]]] ((1 : ℕ) : ℤ) = some w ∧
      (∀ t, t < 1 → w.getD t [] = zeroFrame 1 1) ∧
      (∀ t, 1 ≤ t → t < 3 → w.getD t [] = [[[(1:ℚ)]], [[2]], [[3]]].getD (t - 1) []) :=
  c3_positive_delay.1 [[[1]], [[2]], [[3]]] 1 1 3 1 (by decide) (by decide)
    (by decide) (by decide)

/-- C4 counterexample: delay alignment is not total.  At `u = [1, 2, 3]`
(shape `(1, 1, 3)`) a delay of `-1` raises instead of returning a value,
and a delay of `4` returns a sequence of length 4, not the input's length
3 (and hence not all-zero *of the input's shape* either). -/
theorem c4_counterexample :
    get_u_delayed [[[1]], [[2]], [[3]]] (-1) = none ∧
    get_u_delayed [[[1]], [[2]], [[3]]] 4 = some [[[0]], [[0]], [[0]], [[0]]] := by
  constructor
  · rfl
  · rfl

/-- C4 amended: delay alignment is total only over `0 ≤ io_delay ≤ L`:
there it never raises, preserves the shape, and at `io_delay = L` the
result is all-zero.  (For `io_delay < 0` the code raises; for
`io_delay > L` the result has length `io_delay` instead of `L`.) -/
theorem c4_amended (u : Tensor) (n c L d : ℕ) (hu : HasShape u n c L)
    (hL : 0 < L) (hn : 0 < n) (hdL : d ≤ L) :
    ∃ w, get_u_delayed u (d : ℤ) = some w ∧ HasShape w n c L ∧
      (d = L → w = zerosT n c L) := by
  obtain ⟨hb, hc⟩ := dims_of_hasShape hu hL hn
  have hlen : u.length = L := hu.1
  rcases Nat.eq_zero_or_pos d with hd0 | hdpos
  · subst hd0
    refine ⟨u, by simp [get_u_delayed], hu, ?_⟩
    intro h; omega
  · have hpos : (0 : ℤ) < (d : ℤ) := by exact_mod_cast hdpos
    refine ⟨zerosT n c d ++ u.take (u.length - d), ?_, ⟨?_, ?_⟩, ?_⟩
    · simp [get_u_delayed, hpos, hb, hc]
    · simp [zerosT, hlen]
      omega
    · intro f hf
      rcases List.mem_append.1 hf with hz | ht
      · have : f = zeroFrame n c := by
          simpa [zerosT] using List.eq_of_mem_replicate hz
        subst this
        exact ⟨by simp [zeroFrame], fun r hr => by
          simp [zeroFrame] at hr
          simp [hr]⟩
      · exact hu.2 f (List.take_subset _ _ ht)
    · intro hdl
      subst hdl
      simp [hlen]

/-- Witness for `c4_amended`: `u = [1, 2]`, `io_delay = 2 = L`. -/
theorem c4_amended_witness :
    ∃ w, get_u_delayed [[[1]], [[2]]] ((2 : ℕ) : ℤ) = some w ∧
      HasShape w 1 1 2 ∧ ((2 : ℕ) = 2 → w = zerosT 1 1 2) :=
  c4_amended [[[1]], [[2]]] 1 1 2 2 (by decide) (by decide) (by decide)
    (by decide)

/-- C6: free-run simulation never depends on the reference output: two
calls differing only in `y` (including an absent `y`) return identical
results, in every configuration. -/
theorem c6_free_run_ignores_reference (ar : Bool) (m : Tensor → Tensor)
    (rf : ℕ) (d : ℤ) (u : Tensor) (y1 y2 : Option Tensor) :
    free_run_simulation ar m rf d u y1 = free_run_simulation ar m rf d u y2 := by
  cases ar with
  | true => rfl
  | false => simp [free_run_simulation, one_step_ahead]

/-- C8: the mode machine starts in `ONE_STEP_AHEAD` with the predictor's
flag synchronized; `set_mode` updates both; `forward` dispatches
`ONE_STEP_AHEAD` to one-step-ahead inference, `FREE_RUN_SIMULATION` to
free-run simulation, and raises on any other mode value; after
`set_mode(FREE_RUN_SIMULATION)` the next invocation takes the free-run
path. -/
theorem c8_mode_machine :
    initState.mode = RunMode.ONE_STEP_AHEAD ∧
    initState.predictorMode = RunMode.ONE_STEP_AHEAD ∧
    (∀ s mo, (set_mode s mo).mode = mo ∧ (set_mode s mo).predictorMode = mo) ∧
    (∀ s ar m rf d u y?, s.mode = RunMode.ONE_STEP_AHEAD →
      forwardCall s ar m rf d u y? = one_step_ahead ar m d u y?) ∧
    (∀ s ar m rf d u y?, s.mode = RunMode.FREE_RUN_SIMULATION →
      forwardCall s ar m rf d u y? = free_run_simulation ar m rf d u y?) ∧
    (∀ s ar m rf d u y?, s.mode = RunMode.OTHER →
      forwardCall s ar m rf d u y? = none) ∧
    (∀ s ar m rf d u y?,
      forwardCall (set_mode s RunMode.FREE_RUN_SIMULATION) ar m rf d u y? =
        free_run_simulation ar m rf d u y?) := by
  refine ⟨rfl, rfl, fun s mo => ⟨rfl, rfl⟩, ?_, ?_, ?_, ?_⟩
  · intro s ar m rf d u y? h
    simp [forwardCall, h]
  · intro s ar m rf d u y? h
    simp [forwardCall, h]
  · intro s ar m rf d u y? h
    simp [forwardCall, h]
  · intro s ar m rf d u y?
    rfl

/-- Witness for `c8_mode_machine`: after switching a fresh core to
`FREE_RUN_SIMULATION`, `forward` takes the free-run path, and an
unsupported mode raises. -/
theorem c8_mode_machine_witness :
    forwardCall (set_mode initState RunMode.FREE_RUN_SIMULATION) false
        (fun x => x) 0 0 [[[1]]] none =
      free_run_simulation false (fun x => x) 0 0 [[[1]]] none ∧
    forwardCall { mode := RunMode.OTHER, predictorMode := RunMode.OTHER }
        false (fun x => x) 0 0 [[[1]]] none = none :=
  ⟨c8_mode_machine.2.2.2.2.2.2 initState false (fun x => x) 0 0 [[[1]]] none,
   c8_mode_machine.2.2.2.2.2.1 _ false (fun x => x) 0 0 [[[1]]] none rfl⟩

theorem getD_zipWith {α β γ : Type _} (f : α → β → γ) (a : List α)
    (b : List β) (t : ℕ) (da : α) (db : β) (dc : γ)
    (h1 : t < a.length) (h2 : t < b.length) :
    (List.zipWith f a b).getD t dc = f (a.getD t da) (b.getD t db) := by
  induction a generalizing b t with
  | nil => simp at h1
  | cons x a ih =>
    cases b with
    | nil => simp at h2
    | cons y b =>
      cases t with
      | zero => simp
      | succ t =>
        simpa using ih b t (by simpa using h1) (by simpa using h2)

theorem length_get_u_delayed {u w : Tensor} {d : ℤ}
    (h : get_u_delayed u d = some w) : u.length ≤ w.length := by
  unfold get_u_delayed at h
  split_ifs at h with h1 h2
  all_goals cases h
  · simp [zerosT]
    omega
  · exact le_refl _

theorem length_get_u_delayed_eq {u w : Tensor} {d : ℤ}
    (h : get_u_delayed u d = some w) (hd : d ≤ (u.length : ℤ)) :
    w.length = u.length := by
  unfold get_u_delayed at h
  split_ifs at h with h1 h2
  all_goals cases h
  · simp [zerosT]
    omega
  · rfl

theorem getD_catChannel (x y : Tensor) (t : ℕ)
    (h1 : t < x.length) (h2 : t < y.length) :
    (catChannel x y).getD t [] = List.zipWith (· ++ ·) (x.getD t []) (y.getD t []) := by
  unfold catChannel
  exact getD_zipWith _ x y t [] [] [] h1 h2

/-- C5 counterexample: one-step-ahead inference does not hold for *every*
call with matching `u`/`y` shapes.  With `u = [1, 2]`, `y = [5, 6]` (both
shape `(1, 1, 2)`) and `io_delay = 3 > L = 2`, the delayed input has time
length 3 while the shifted reference has length 2, so
`torch.cat((u_delayed, y_delayed), 1)` raises on the time-dimension
mismatch: the predictor is never invoked and no output is returned. -/
theorem c5_counterexample :
    one_step_ahead true (fun x => x) 3 [[[1]], [[2]]] (some [[[5]], [[6]]]) =
      none := by
  rfl

/-- C5 amended: for every one-step-ahead call whose delay satisfies
`io_delay ≤ L` (so that the delayed input keeps the input's length and the
channel concatenation is well-formed), when autoregressive the feature fed
to the predictor is, at each step `t`, the channel-axis concatenation of
the delayed input at `t` with the reference output at `t-1` (the reference
sequence shifted one step right with a zero first step); when not
autoregressive the feature is the delayed input alone; in both cases the
predictor is invoked exactly once on the whole sequence and its output is
returned unchanged.  (For `io_delay > L` the `torch.cat` raises, and for
`io_delay < 0` delay alignment itself raises.) -/
theorem c5_one_step_ahead :
    (∀ (m : Tensor → Tensor) (d : ℤ) (u y uD : Tensor) (n c cy L : ℕ),
      HasShape u n c L → HasShape y n cy L → 0 < n → 0 < L →
      get_u_delayed u d = some uD → d ≤ (L : ℤ) →
      one_step_ahead true m d u (some y) =
        some (m (catChannel uD (shiftRightOne n cy y))) ∧
      (∀ t, t < L →
        (catChannel uD (shiftRightOne n cy y)).getD t [] =
          List.zipWith (· ++ ·) (uD.getD t [])
            (if t = 0 then zeroFrame n cy else y.getD (t - 1) []))) ∧
    (∀ (m : Tensor → Tensor) (d : ℤ) (u uD : Tensor) (y? : Option Tensor),
      get_u_delayed u d = some uD →
      one_step_ahead false m d u y? = some (m uD)) := by
  constructor
  · intro m d u y uD n c cy L hu hy hn hL huD hdL
    obtain ⟨hyb, hyc⟩ := dims_of_hasShape hy hL hn
    have hylen : y.length = L := hy.1
    have hulen : u.length = L := hu.1
    have huDlen : uD.length = L := by
      have h2 := length_get_u_delayed_eq huD (by rw [hulen]; exact hdL)
      rw [hulen] at h2
      exact h2
    have hsr : (shiftRightOne n cy y).length = L := by
      simp [shiftRightOne]
      omega
    constructor
    · simp [one_step_ahead, huD, hyb, hyc, catChannelChk, huDlen, hsr]
    · intro t ht
      rw [getD_catChannel uD _ t (by omega) (by omega)]
      congr 1
      cases t with
      | zero => simp [shiftRightOne]
      | succ t =>
        simp only [shiftRightOne, List.getD_cons_succ, Nat.succ_ne_zero,
          if_neg, Nat.succ_sub_one]
        exact getD_take_eq _ _ _ _ (by omega)
  · intro m d u uD y? huD
    simp [one_step_ahead, huD]

/-- Witness for `c5_one_step_ahead`: identity predictor, zero delay,
`u = [1, 2]`, `y = [5, 6]` (all shapes `(1, 1, 2)`). -/
theorem c5_one_step_ahead_witness :
    one_step_ahead true (fun x => x) 0 [[[1]], [[2]]] (some [[[5]], [[6]]]) =
      some ((fun x : Tensor => x)
        (catChannel [[[1]], [[2]]] (shiftRightOne 1 1 [[[5]], [[6]]]))) ∧
    (∀ t, t < 2 →
      (catChannel [[[1]], [[2]]] (shiftRightOne 1 1 [[[5]], [[6]]])).getD t [] =
        List.zipWith (· ++ ·) ([[[(1:ℚ)]], [[2]]].getD t [])
          (if t = 0 then zeroFrame 1 1 else [[[(5:ℚ)]], [[6]]].getD (t - 1) [])) :=
  c5_one_step_ahead.1 (fun x => x) 0 [[[1]], [[2]]] [[[5]], [[6]]]
    [[[1]], [[2]]] 1 1 1 2 (by decide) (by decide) (by decide) (by decide) rfl
    (by decide)

theorem reshape3_spec (a c : ℕ) (xs : List ℚ) (h : xs.length = a * 1 * c) :
    ∃ R, reshape3 a 1 c xs = some R ∧ R.length = a ∧
      ∀ idx, idx < a →
        (R.getD idx []).length = 1 ∧ ∀ r ∈ R.getD idx [], r.length = c := by
  refine ⟨(List.range a).map fun i =>
      (List.range 1).map fun j => (xs.drop ((i * 1 + j) * c)).take c,
    by simp [reshape3, h], by simp, ?_⟩
  intro idx hidx
  have hgetD : ((List.range a).map fun i =>
      (List.range 1).map fun j => (xs.drop ((i * 1 + j) * c)).take c).getD idx [] =
      (List.range 1).map fun j => (xs.drop ((idx * 1 + j) * c)).take c := by
    rw [List.getD_eq_getElem _ _ (by simpa using hidx)]
    simp
  rw [hgetD]
  refine ⟨by simp, ?_⟩
  intro r hr
  have hr1 : (List.range 1).map (fun j => (xs.drop ((idx * 1 + j) * c)).take c) =
      [(xs.drop ((idx * 1 + 0) * c)).take c] := rfl
  rw [hr1, List.mem_singleton] at hr
  subst hr
  simp only [List.length_take, List.length_drop]
  have h2 : (idx + 1) * c ≤ a * c := Nat.mul_le_mul_right c (Nat.succ_le_of_lt hidx)
  have h3 : (idx * 1 + 0) * c + c ≤ xs.length := by
    have h1 : (idx * 1 + 0) * c + c = (idx + 1) * c := by ring
    rw [h1, h]
    exact le_of_le_of_eq h2 (by ring)
  omega

/-- C9 counterexample: `ChenDataset` construction does not succeed for all
positive parameters.  With `seq_len = 3`, `ntotbatch = 1`, `burnout = 100`
the total length `103` is not divisible by the input-repetition factor 5,
so `np.repeat` yields only 100 samples, the burnout drop leaves 0, and the
reshape to `(1, 1, 3)` raises.  (The oracle random streams are irrelevant
to the failure; zeros are used.) -/
theorem c9_counterexample :
    gen_data (fun _ => 1) (fun _ => 0) (fun _ => 0) (fun _ => 0) (fun _ => 0)
      1 1 3 1 100 = none := by
  decide

/-- C9 amended: whenever `seq_len * ntotbatch + burnout` is divisible by 5
(the repetition factor of the input generator), construction succeeds, the
declared item count is `ntotbatch`, and every item at `idx < ntotbatch` is
a pair of arrays of shape `(1, seq_len)`, matching `data_shape`. -/
theorem c9_amended (e : ℚ → ℚ) (rngU rngV rngW y0 : ℕ → ℚ) (sdv sdw : ℚ)
    (seq_len ntotbatch burnout : ℕ)
    (hs : 0 < seq_len) (hn : 0 < ntotbatch) (hb : 0 < burnout)
    (hdiv : 5 ∣ (seq_len * ntotbatch + burnout)) :
    ∃ U Y,
      gen_data e rngU rngV rngW y0 sdv sdw seq_len ntotbatch burnout =
        some (U, Y) ∧
      chen_len ntotbatch = ntotbatch ∧
      U.length = ntotbatch ∧ Y.length = ntotbatch ∧
      (∀ idx, idx < ntotbatch →
        ((chen_getitem (U, Y) idx).1.length = 1 ∧
          ∀ r ∈ (chen_getitem (U, Y) idx).1, r.length = seq_len) ∧
        ((chen_getitem (U, Y) idx).2.length = 1 ∧
          ∀ r ∈ (chen_getitem (U, Y) idx).2, r.length = seq_len)) ∧
      chen_data_shape seq_len = ((1, seq_len), (1, seq_len)) := by
  have hulen : (generate_random_input rngU (seq_len * ntotbatch + burnout) 5 1).length
      = seq_len * ntotbatch + burnout := by
    simp [generate_random_input, List.length_flatMap, Function.comp_def,
      List.map_const', List.sum_replicate, smul_eq_mul]
    omega
  have hylen : (simulate_system e rngV rngW y0 sdv sdw
      (generate_random_input rngU (seq_len * ntotbatch + burnout) 5 1)).length
      = seq_len * ntotbatch + burnout := by
    simp [simulate_system, hulen]
  have hdulen : ((generate_random_input rngU (seq_len * ntotbatch + burnout) 5 1).drop
      burnout).length = ntotbatch * 1 * seq_len := by
    rw [List.length_drop, hulen, Nat.add_sub_cancel]
    ring
  have hdylen : ((simulate_system e rngV rngW y0 sdv sdw
      (generate_random_input rngU (seq_len * ntotbatch + burnout) 5 1)).drop
      burnout).length = ntotbatch * 1 * seq_len := by
    rw [List.length_drop, hylen, Nat.add_sub_cancel]
    ring
  obtain ⟨U, hU, hUlen, hUitems⟩ := reshape3_spec ntotbatch seq_len _ hdulen
  obtain ⟨Y, hY, hYlen, hYitems⟩ := reshape3_spec ntotbatch seq_len _ hdylen
  refine ⟨U, Y, ?_, rfl, hUlen, hYlen, ?_, rfl⟩
  · simp only [gen_data]
    rw [hU, hY]
    rfl
  · intro idx hidx
    exact ⟨hUitems idx hidx, hYitems idx hidx⟩

/-- Witness for `c9_amended`: `seq_len = 5`, `ntotbatch = 1`,
`burnout = 100` (total `105 = 5 · 21`). -/
theorem c9_amended_witness :
    ∃ U Y,
      gen_data (fun _ => 1) (fun _ => 0) (fun _ => 0) (fun _ => 0) (fun _ => 0)
        1 1 5 1 100 = some (U, Y) ∧
      chen_len 1 = 1 ∧
      U.length = 1 ∧ Y.length = 1 ∧
      (∀ idx, idx < 1 →
        ((chen_getitem (U, Y) idx).1.length = 1 ∧
          ∀ r ∈ (chen_getitem (U, Y) idx).1, r.length = 5) ∧
        ((chen_getitem (U, Y) idx).2.length = 1 ∧
          ∀ r ∈ (chen_getitem (U, Y) idx).2, r.length = 5)) ∧
      chen_data_shape 5 = ((1, 5), (1, 5)) :=
  c9_amended (fun _ => 1) (fun _ => 0) (fun _ => 0) (fun _ => 0) (fun _ => 0)
    1 1 5 1 100 (by decide) (by decide) (by decide) (by decide)

theorem specSim_length (m : Tensor → Tensor) (rf n c : ℕ) (uD : Tensor)
    (i : ℕ) : (specSim m rf n c uD i).length = i := by
  induction i with
  | zero => rfl
  | succ i ih => simp [specSim, ih]

theorem specSim_take (m : Tensor → Tensor) (rf n c : ℕ) (uD : Tensor)
    {i j : ℕ} (h : i ≤ j) :
    (specSim m rf n c uD j).take i = specSim m rf n c uD i := by
  induction j with
  | zero =>
    have : i = 0 := by omega
    subst this
    rfl
  | succ j ih =>
    rcases Nat.lt_or_ge i (j + 1) with hlt | hge
    · have hij : i ≤ j := by omega
      simp only [specSim]
      rw [List.take_append_of_le_length (by rw [specSim_length]; exact hij)]
      exact ih hij
    · have : i = j + 1 := by omega
      subst this
      exact List.take_of_length_le (by simp [specSim_length])

theorem arWindow_congr (rf n c : ℕ) (uD : Tensor) {b1 b2 : Tensor} (i : ℕ)
    (h : b1.take i = b2.take i) :
    arWindow rf n c uD b1 i = arWindow rf n c uD b2 i := by
  unfold arWindow
  split_ifs with hi
  · rw [h]
  · have e : ∀ b : Tensor, (b.drop (i - rf)).take (i - (i - rf)) =
        (b.take i).drop (i - rf) := fun b => (List.drop_take i (i - rf) b).symm
    rw [e b1, e b2, h]

theorem arWindowSpec_eq_arWindow (rf n c : ℕ) (uD out : Tensor) (t : ℕ) :
    arWindowSpec rf n c uD out t = arWindow rf n c uD out t := by
  unfold arWindowSpec arWindow padTimeLeft
  split_ifs with h
  · rfl
  · have e1 : (t + 1) - (t - rf + 1) = rf := by omega
    have e2 : t - (t - rf) = rf := by omega
    rw [e1, e2]

theorem getLast?_of_hasShape {x : Tensor} {n c t : ℕ}
    (h : HasShape x n c (t + 1)) :
    ∃ v, x.getLast? = some v ∧ v.length = n ∧ ∀ r ∈ v, r.length = c := by
  have hne : x ≠ [] := by
    intro h0
    subst h0
    simpa using h.1
  obtain ⟨hv1, hv2⟩ := h.2 (x.getLast hne) (List.getLast_mem hne)
  exact ⟨x.getLast hne, List.getLast?_eq_getLast x hne, hv1, hv2⟩

theorem bcastRow_exact {c : ℕ} {r : List ℚ} (h : r.length = c) :
    bcastRow c r = some r := by
  simp [bcastRow, h]

theorem bcastRows_exact {c : ℕ} {f : List (List ℚ)}
    (h : ∀ r ∈ f, r.length = c) : bcastRows c f = some f := by
  induction f with
  | nil => rfl
  | cons r rs ih =>
    rw [bcastRows, bcastRow_exact (h r (by simp))]
    simp [ih (fun r2 hr2 => h r2 (by simp [hr2]))]

theorem bcastFrame_exact {n c : ℕ} {f : Frame} (h1 : f.length = n)
    (h2 : ∀ r ∈ f, r.length = c) : bcastFrame n c f = some f := by
  simp [bcastFrame, h1, bcastRows_exact h2]

theorem zeroFrame_headD {n c : ℕ} (hn : 0 < n) :
    (zeroFrame n c).headD [] = List.replicate c 0 := by
  cases n with
  | zero => omega
  | succ k => rfl

theorem getD_spec_buffer (spec : Tensor) (n c L i : ℕ)
    (hlen : spec.length = i) (hiL : i < L) :
    (spec ++ zerosT n c (L - i)).getD i [] = zeroFrame n c := by
  rw [List.getD_append_right _ _ _ _ (by omega), hlen, Nat.sub_self]
  exact getD_replicate_of_lt _ _ _ _ (by omega)

theorem set_append_length {α : Type _} (l1 l2 : List α) (v : α) :
    (l1 ++ l2).set l1.length v = l1 ++ l2.set 0 v := by
  induction l1 with
  | nil => simp
  | cons a l ih => simp [ih]

theorem storeStep_exact (spec : Tensor) {n c L i : ℕ} (v : Frame)
    (hn : 0 < n) (hlen : spec.length = i) (hiL : i < L)
    (hv1 : v.length = n) (hv2 : ∀ r ∈ v, r.length = c) :
    storeStep (spec ++ zerosT n c (L - i)) i v =
      some ((spec ++ [v]) ++ zerosT n c (L - (i + 1))) := by
  unfold storeStep
  rw [getD_spec_buffer spec n c L i hlen hiL]
  have e1 : (zeroFrame n c).length = n := by simp [zeroFrame]
  have e2 : ((zeroFrame n c).headD []).length = c := by
    rw [zeroFrame_headD hn]
    simp
  rw [e1, e2, bcastFrame_exact hv1 hv2]
  have hset : (spec ++ zerosT n c (L - i)).set i v =
      (spec ++ [v]) ++ zerosT n c (L - (i + 1)) := by
    conv_lhs => rw [← hlen]
    rw [set_append_length, hlen]
    have hsplit : L - i = (L - (i + 1)) + 1 := by omega
    rw [hsplit]
    have hcons : zerosT n c ((L - (i + 1)) + 1) =
        zeroFrame n c :: zerosT n c (L - (i + 1)) := rfl
    rw [hcons]
    simp
  simp [hset]

theorem specSim_succ (m : Tensor → Tensor) (rf n c : ℕ) (uD : Tensor)
    (i : ℕ) :
    specSim m rf n c uD (i + 1) =
      specSim m rf n c uD i ++
        [((m (arWindow rf n c uD (specSim m rf n c uD i) i)).getLast?).getD
          (zeroFrame n c)] := rfl

theorem freeRun_loop_spec (m : Tensor → Tensor) (rf n c : ℕ) (uD : Tensor)
    (L : ℕ) (hn : 0 < n)
    (Hm : ∀ x, ∃ k, HasShape (m x) n c (k + 1)) :
    ∀ i, i ≤ L →
      (List.range i).foldlM (freeRunStep m rf n c uD) (zerosT n c L) =
        some (specSim m rf n c uD i ++ zerosT n c (L - i)) := by
  intro i
  induction i with
  | zero =>
    intro _
    simp [specSim]
  | succ i ih =>
    intro hiL
    have hi : i ≤ L := by omega
    have hiL2 : i < L := by omega
    rw [List.range_succ, List.foldlM_append, ih hi]
    have hspec : (specSim m rf n c uD i).length = i := specSim_length m rf n c uD i
    have htake : (specSim m rf n c uD i ++ zerosT n c (L - i)).take i =
        (specSim m rf n c uD i).take i := by
      exact List.take_append_of_le_length (by omega)
    have hwin : arWindow rf n c uD (specSim m rf n c uD i ++ zerosT n c (L - i)) i =
        arWindow rf n c uD (specSim m rf n c uD i) i := by
      exact arWindow_congr rf n c uD i (by rw [htake])
    obtain ⟨k, hk⟩ := Hm (arWindow rf n c uD (specSim m rf n c uD i) i)
    obtain ⟨v, hv, hvn, hvc⟩ := getLast?_of_hasShape hk
    have hstep : freeRunStep m rf n c uD
        (specSim m rf n c uD i ++ zerosT n c (L - i)) i =
        some (specSim m rf n c uD (i + 1) ++ zerosT n c (L - (i + 1))) := by
      unfold freeRunStep
      rw [hwin, hv]
      have := storeStep_exact (specSim m rf n c uD i) v hn hspec hiL2 hvn hvc
      simp only [Option.some_bind]
      rw [this, specSim_succ, hv]
      simp
    simp only [Option.some_bind, List.foldlM_cons, List.foldlM_nil, hstep,
      Option.bind_eq_bind]
    simp [hstep]

theorem free_run_eq_specSim (m : Tensor → Tensor) (rf : ℕ) (d : ℤ)
    (u uD : Tensor) (y? : Option Tensor) (hn : 0 < nBatch u)
    (huD : get_u_delayed u d = some uD)
    (Hm : ∀ x, ∃ k, HasShape (m x) (nBatch u) (nChannels u) (k + 1)) :
    free_run_simulation true m rf d u y? =
      some (specSim m rf (nBatch u) (nChannels u) uD (seqLen u)) := by
  unfold free_run_simulation
  rw [if_pos rfl, huD, Option.some_bind]
  rw [freeRun_loop_spec m rf (nBatch u) (nChannels u) uD (seqLen u) hn Hm
    (seqLen u) (le_refl _)]
  simp [zerosT]

theorem specSim_shape (m : Tensor → Tensor) (rf n c : ℕ) (uD : Tensor)
    (Hm : ∀ x, ∃ k, HasShape (m x) n c (k + 1)) (i : ℕ) :
    HasShape (specSim m rf n c uD i) n c i := by
  induction i with
  | zero => exact ⟨rfl, by simp [specSim]⟩
  | succ i ih =>
    refine ⟨by simp [specSim_length], ?_⟩
    intro f hf
    rw [specSim_succ] at hf
    rcases List.mem_append.1 hf with h1 | h2
    · exact ih.2 f h1
    · obtain ⟨k, hk⟩ := Hm (arWindow rf n c uD (specSim m rf n c uD i) i)
      obtain ⟨v, hv, hvn, hvc⟩ := getLast?_of_hasShape hk
      rw [List.mem_singleton] at h2
      subst h2
      rw [hv]
      simpa using ⟨hvn, hvc⟩

/-- C1: in autoregressive free-run simulation with receptive field
`rf ≥ 1`, the delayed input is computed once and the returned sequence `R`
has the input's length; at every step `t` the stored value is exactly the
last time step of the predictor applied to the window the claim describes
(`arWindowSpec`): for `t < rf` the first `t+1` delayed-input frames padded
left with `rf-t-1` zeros against the first `t` produced frames padded left
with `rf-t` zeros, for `t ≥ rf` the slices `[t-rf+1, t]` and `[t-rf, t-1]`,
input window before output window on the channel axis — the produced
frames being `R`'s own entries at indices `< t`. -/
theorem c1_free_run_loop (m : Tensor → Tensor) (rf : ℕ) (d : ℤ)
    (u uD : Tensor) (y? : Option Tensor)
    (hrf : 1 ≤ rf) (hn : 0 < nBatch u) (hc : 0 < nChannels u)
    (huD : get_u_delayed u d = some uD)
    (Hm : ∀ x, ∃ k, HasShape (m x) (nBatch u) (nChannels u) (k + 1)) :
    ∃ R, free_run_simulation true m rf d u y? = some R ∧
      seqLen R = seqLen u ∧
      ∀ t, t < seqLen u →
        (m (arWindowSpec rf (nBatch u) (nChannels u) uD R t)).getLast? =
          some (R.getD t []) := by
  refine ⟨specSim m rf (nBatch u) (nChannels u) uD (seqLen u),
    free_run_eq_specSim m rf d u uD y? hn huD Hm,
    by simp [seqLen, specSim_length], ?_⟩
  intro t ht
  have hW : arWindowSpec rf (nBatch u) (nChannels u) uD
      (specSim m rf (nBatch u) (nChannels u) uD (seqLen u)) t =
      arWindow rf (nBatch u) (nChannels u) uD
        (specSim m rf (nBatch u) (nChannels u) uD t) t := by
    rw [arWindowSpec_eq_arWindow]
    refine arWindow_congr _ _ _ _ t ?_
    rw [specSim_take m rf (nBatch u) (nChannels u) uD (le_of_lt ht),
      specSim_take m rf (nBatch u) (nChannels u) uD (le_refl t)]
  rw [hW]
  obtain ⟨k, hk⟩ := Hm (arWindow rf (nBatch u) (nChannels u) uD
    (specSim m rf (nBatch u) (nChannels u) uD t) t)
  obtain ⟨v, hv, hvn, hvc⟩ := getLast?_of_hasShape hk
  have h1 : (specSim m rf (nBatch u) (nChannels u) uD (seqLen u)).getD t [] =
      (specSim m rf (nBatch u) (nChannels u) uD (t + 1)).getD t [] := by
    rw [← specSim_take m rf (nBatch u) (nChannels u) uD
      (show t + 1 ≤ seqLen u by omega)]
    exact (getD_take_eq _ _ _ _ (by omega)).symm
  have h2 : (specSim m rf (nBatch u) (nChannels u) uD (seqLen u)).getD t [] = v := by
    rw [h1, specSim_succ,
      List.getD_append_right _ _ _ _ (by simp [specSim_length]),
      specSim_length]
    simp [hv]
  rw [hv, h2]

/-- Witness for `c1_free_run_loop`: constant predictor `m _ = [[[5]]]`,
`rf = 1`, zero delay, `u = [1, 2]` of shape `(1, 1, 2)`. -/
theorem c1_free_run_loop_witness :
    ∃ R, free_run_simulation true (fun _ => [[[5]]]) 1 0 [[[1]], [[2]]] none =
        some R ∧
      seqLen R = seqLen [[[1]], [[2]]] ∧
      ∀ t, t < seqLen [[[(1:ℚ)]], [[2]]] →
        ((fun _ : Tensor => ([[[5]]] : Tensor))
            (arWindowSpec 1 (nBatch [[[1]], [[2]]]) (nChannels [[[1]], [[2]]])
              [[[1]], [[2]]] R t)).getLast? =
          some (R.getD t []) :=
  c1_free_run_loop (fun _ => [[[5]]]) 1 0 [[[1]], [[2]]] [[[1]], [[2]]] none
    (by decide) (by decide) (by decide) rfl
    (fun _ => ⟨0, by
      show HasShape [[[5]]] (nBatch [[[1]], [[2]]]) (nChannels [[[1]], [[2]]]) (0 + 1)
      decide⟩)

/-- C7 counterexample: with `rf = 0`, free-run does NOT feed the predictor
from the input.  The window at step 0 (shown for `u = [3]`, shape
`(1, 1, 1)`) is entirely empty — zero time steps of input as well as of
output context — and consequently a predictor that reads the first value
of its window cannot distinguish the inputs `[3]` and `[4]`: both
free-run outputs coincide. -/
theorem c7_counterexample :
    arWindow 0 1 1 [[[3]]] [[[0]]] 0 = ([] : Tensor) ∧
    free_run_simulation true
        (fun x => [[[((x.headD []).headD []).headD 0 + 1]]]) 0 0
        [[[3]]] none =
      free_run_simulation true
        (fun x => [[[((x.headD []).headD []).headD 0 + 1]]]) 0 0
        [[[4]]] none := by
  exact ⟨rfl, rfl⟩

/-- C7 amended: when `rf = 0` every free-run window degenerates to the
empty tensor — the output context is zero-width, but so is the input
context, so the predictor is fed no samples at all (its per-step output is
`m []`, independent of the input's values); and a sequence shorter than
`rf` is handled by the left-padding rule and is never an error. -/
theorem c7_amended :
    (∀ (n c : ℕ) (uD ySim : Tensor) (i : ℕ), arWindow 0 n c uD ySim i = []) ∧
    (∀ (m : Tensor → Tensor) (rf : ℕ) (d : ℤ) (u uD : Tensor)
        (y? : Option Tensor),
      0 < nBatch u →
      get_u_delayed u d = some uD →
      (∀ x, ∃ k, HasShape (m x) (nBatch u) (nChannels u) (k + 1)) →
      seqLen u < rf →
      ∃ R, free_run_simulation true m rf d u y? = some R ∧
        seqLen R = seqLen u) := by
  constructor
  · intro n c uD ySim i
    unfold arWindow
    rw [if_neg (by omega)]
    have e1 : (i + 1) - (i - 0 + 1) = 0 := by omega
    have e2 : i - (i - 0) = 0 := by omega
    rw [e1, e2]
    rfl
  · intro m rf d u uD y? hn huD Hm hLrf
    exact ⟨_, free_run_eq_specSim m rf d u uD y? hn huD Hm,
      by simp [seqLen, specSim_length]⟩

/-- Witness for `c7_amended`: `rf = 0` window emptiness at a concrete
input, and a length-1 sequence simulated without error under `rf = 3`. -/
theorem c7_amended_witness :
    arWindow 0 1 1 [[[1]]] [[[0]]] 0 = ([] : Tensor) ∧
    ∃ R, free_run_simulation true (fun _ => [[[7]]]) 3 0 [[[1]]] none =
        some R ∧ seqLen R = seqLen [[[(1:ℚ)]]] :=
  ⟨c7_amended.1 1 1 [[[1]]] [[[0]]] 0,
   c7_amended.2 (fun _ => [[[7]]]) 3 0 [[[1]]] [[[1]]] none (by decide) rfl
     (fun _ => ⟨0, by
       show HasShape [[[7]]] (nBatch [[[1]]]) (nChannels [[[1]]]) (0 + 1)
       decide⟩) (by decide)⟩

/-- C10 counterexample: the per-step store is well-formed in a case where
`num_outputs ≠ num_inputs`.  With a 2-channel input `u = [[1, 2]]` (shape
`(1, 2, 1)`) and a predictor producing a single output channel, numpy
broadcasting makes the assignment succeed, copying the one predicted
channel across both buffer channels. -/
theorem c10_counterexample :
    free_run_simulation true (fun _ => [[[9]]]) 1 0 [[[(1:ℚ), 2]]] none =
      some [[[9, 9]]] ∧
    nChannels [[[(1:ℚ), 2]]] = 2 := by
  exact ⟨rfl, rfl⟩

/-- C10 amended: the free-run buffer is allocated with the input's full
`(batch, input-channel, length)` shape, so the returned simulation always
has the input's channel count (`num_inputs`, not `num_outputs`), and the
per-step store is well-formed when the predictor's output channel count
equals `num_inputs` — but also when it is 1 (the single channel is
broadcast across the buffer's channel axis); with any other output channel
count the store raises. -/
theorem c10_amended :
    (∀ (m : Tensor → Tensor) (rf : ℕ) (d : ℤ) (u uD : Tensor)
        (y? : Option Tensor),
      0 < nBatch u →
      get_u_delayed u d = some uD →
      (∀ x, ∃ k, HasShape (m x) (nBatch u) (nChannels u) (k + 1)) →
      ∃ R, free_run_simulation true m rf d u y? = some R ∧
        HasShape R (nBatch u) (nChannels u) (seqLen u)) ∧
    (∀ (m : Tensor → Tensor) (rf : ℕ) (d : ℤ) (u uD : Tensor)
        (y? : Option Tensor) (c2 : ℕ),
      0 < nBatch u → 0 < seqLen u →
      get_u_delayed u d = some uD →
      (∀ x, ∃ k, HasShape (m x) (nBatch u) c2 (k + 1)) →
      c2 ≠ nChannels u → c2 ≠ 1 →
      free_run_simulation true m rf d u y? = none) := by
  constructor
  · intro m rf d u uD y? hn huD Hm
    exact ⟨_, free_run_eq_specSim m rf d u uD y? hn huD Hm,
      specSim_shape m rf (nBatch u) (nChannels u) uD Hm (seqLen u)⟩
  · intro m rf d u uD y? c2 hn hL huD Hm hc2 hc21
    unfold free_run_simulation
    rw [if_pos rfl, huD, Option.some_bind]
    obtain ⟨L2, hL2⟩ : ∃ L2, seqLen u = L2 + 1 := ⟨seqLen u - 1, by omega⟩
    rw [hL2, List.range_succ_eq_map]
    obtain ⟨k, hk⟩ := Hm (arWindow rf (nBatch u) (nChannels u) uD
      (zerosT (nBatch u) (nChannels u) (L2 + 1)) 0)
    obtain ⟨v, hv, hvn, hvc2⟩ := getLast?_of_hasShape hk
    have hstep : freeRunStep m rf (nBatch u) (nChannels u) uD
        (zerosT (nBatch u) (nChannels u) (L2 + 1)) 0 = none := by
      unfold freeRunStep
      rw [hv, Option.some_bind]
      unfold storeStep
      have hslot : (zerosT (nBatch u) (nChannels u) (L2 + 1)).getD 0 [] =
          zeroFrame (nBatch u) (nChannels u) :=
        getD_replicate_of_lt _ _ _ _ (by omega)
      rw [hslot]
      have e1 : (zeroFrame (nBatch u) (nChannels u)).length = nBatch u := by
        simp [zeroFrame]
      have e2 : ((zeroFrame (nBatch u) (nChannels u)).headD []).length =
          nChannels u := by
        rw [zeroFrame_headD hn]
        simp
      rw [e1, e2]
      have hbf : bcastFrame (nBatch u) (nChannels u) v = none := by
        unfold bcastFrame
        rw [if_pos hvn]
        cases v with
        | nil =>
          simp at hvn
          omega
        | cons r rs =>
          have hr : r.length = c2 := hvc2 r (by simp)
          simp only [bcastRows]
          unfold bcastRow
          rw [if_neg (by omega), if_neg (by omega)]
          rfl
      rw [hbf]
      rfl
    simp only [List.foldlM_cons, hstep]
    rfl

/-- Witness for `c10_amended`: a matching-channel predictor returns a
result of the input's shape; a 3-channel predictor against a 1-channel
input makes the store raise. -/
theorem c10_amended_witness :
    (∃ R, free_run_simulation true (fun _ => [[[4]]]) 2 0 [[[2]], [[3]]] none =
        some R ∧
      HasShape R (nBatch [[[2]], [[3]]]) (nChannels [[[2]], [[3]]])
        (seqLen [[[(2:ℚ)]], [[3]]])) ∧
    free_run_simulation true (fun _ => [[[8, 8, 8]]]) 1 0 [[[2]], [[3]]] none =
      none :=
  ⟨c10_amended.1 (fun _ => [[[4]]]) 2 0 [[[2]], [[3]]] [[[2]], [[3]]] none
      (by decide) rfl
      (fun _ => ⟨0, by
        show HasShape [[[4]]] (nBatch [[[2]], [[3]]]) (nChannels [[[2]], [[3]]]) (0 + 1)
        decide⟩),
   c10_amended.2 (fun _ => [[[8, 8, 8]]]) 1 0 [[[2]], [[3]]] [[[2]], [[3]]]
      none 3 (by decide) (by decide) rfl
      (fun _ => ⟨0, by
        show HasShape [[[8, 8, 8]]] (nBatch [[[2]], [[3]]]) 3 (0 + 1)
        decide⟩)
      (by decide) (by decide)⟩
